import Mathlib

/-!
Verification of the kodi2jellyfin watch-state reconciliation core
(`src/index.ts`) against its natural-language specification.

Strings are modelled as `List Char`.  The Kodi (source) store and the
Jellyfin (target) store are modelled as in-memory lists of rows; the
`main` loop of the source is the function `runSync` below, acting on the
`UserDatas` table and reporting a per-record outcome (inserted /
updated / skipped), mirroring the per-record log lines of the source.
-/

set_option maxHeartbeats 1000000

abbrev Str := List Char

/-- A row of the Kodi `files` table as selected by the source:
`strFilename`, `lastPlayed`, `playCount`.  `lastPlayed` is `none` for a
SQL NULL; the source reads it as a (possibly empty) string. -/
structure KodiEntry where
  strFilename : Str
  lastPlayed : Option Str
  playCount : Nat
deriving DecidableEq

/-- A row of the Jellyfin `TypedBaseItems` table: the source selects
`guid` (a raw byte blob) and `UserDataKey`, filtering on `Path`. -/
structure TypedBaseItem where
  guid : List Nat
  Path : Str
  UserDataKey : Str
deriving DecidableEq

/-- A row of the Jellyfin `UserDatas` table.  The six payload fields are
the ones the source writes; `extra` stands for any further column of the
table that the source never touches (booleans are stored as the SQLite
integers the source writes: `played = 1`, `isFavorite = 0`). -/
structure UserDataRow where
  key : Str
  userId : Nat
  isFavorite : Nat
  played : Nat
  playbackPositionTicks : Nat
  playCount : Nat
  lastPlayedDate : Str
  extra : Str
deriving DecidableEq

/-- The payload object `data` built by the source for each matched
record (everything inserted/updated except the `key`). -/
structure Payload where
  userId : Nat
  isFavorite : Nat
  played : Nat
  playbackPositionTicks : Nat
  playCount : Nat
  lastPlayedDate : Str
deriving DecidableEq

/-- The source query `kodiDb("files").where("playCount", ">", 0)`: the
watched records. -/
def fetchWatchedRecords (files : List KodiEntry) : List KodiEntry :=
  files.filter (fun f => 0 < f.playCount)

/-- ASCII lower-casing of one character, as SQLite LIKE applies to the
ASCII range. -/
def asciiLower (c : Char) : Char :=
  if 'A' ≤ c ∧ c ≤ 'Z' then Char.ofNat (c.toNat + 32) else c

/-- ASCII lower-casing of a string. -/
def lowerS (s : Str) : Str := s.map asciiLower

/-- SQL LIKE pattern matching (SQLite semantics, as used by
`whereLike`): `%` matches any sequence of characters, `_` matches
exactly one character, any other pattern character matches
ASCII-case-insensitively. -/
def likeMatch : List Char → Str → Bool
  | [], s => s.isEmpty
  | pc :: ps, s =>
    if pc = '%' then s.tails.any (fun t => likeMatch ps t)
    else
      match s with
      | [] => false
      | c :: t =>
        (if pc = '_' then true else asciiLower pc == asciiLower c) && likeMatch ps t

/-- The predicate of the source's `whereLike` call: does `path` match
the LIKE pattern obtained by wrapping the raw filename in a pair of `%`
wildcards? -/
def pathMatches (filename path : Str) : Bool :=
  likeMatch ('%' :: (filename ++ ['%'])) path

/-- The Matcher: first `TypedBaseItems` row whose `Path` matches the
LIKE pattern built from the source filename (`.first()` on the query). -/
def findTargetItem (items : List TypedBaseItem) (filename : Str) : Option TypedBaseItem :=
  items.find? (fun it => pathMatches filename it.Path)

/-- Literal suffix appended by the source to every `lastPlayedDate`. -/
def dotZ : Str := ['.', '0', '0', '0', 'Z']

/-- The JavaScript `a || b` on an optional string: `null`/`undefined` and
the empty string are falsy, so both select the fallback. -/
def jsOrElse (a : Option Str) (b : Str) : Str :=
  match a with
  | none => b
  | some s => if s = [] then b else s

/-- The payload built by the source for one record:
`userId: 1, isFavorite: 0, played: 1, playbackPositionTicks: 0,
playCount, lastPlayedDate: (lastPlayed || formatISO9075(new Date())) + ".000Z"`.
`now` is the `formatISO9075(new Date())` string at the moment of the call. -/
def mkData (e : KodiEntry) (now : Str) : Payload :=
  { userId := 1
    isFavorite := 0
    played := 1
    playbackPositionTicks := 0
    playCount := e.playCount
    lastPlayedDate := jsOrElse e.lastPlayed now ++ dotZ }

/-- The lookup `UserDatas.where("key", k).first()`: the existing row,
if any. -/
def findExisting (uds : List UserDataRow) (k : Str) : Option UserDataRow :=
  uds.find? (fun r => r.key == k)

/-- Overwrite the six payload columns of a row, leaving `key` and every
other column (`extra`) alone — the effect of the SQL UPDATE's SET list. -/
def setPayload (r : UserDataRow) (d : Payload) : UserDataRow :=
  { r with
    userId := d.userId
    isFavorite := d.isFavorite
    played := d.played
    playbackPositionTicks := d.playbackPositionTicks
    playCount := d.playCount
    lastPlayedDate := d.lastPlayedDate }

/-- The write `UserDatas.where("key", k).update({...data})`: every row
whose key matches gets the payload columns overwritten. -/
def applyUpdate (uds : List UserDataRow) (k : Str) (d : Payload) : List UserDataRow :=
  uds.map (fun r => if r.key == k then setPayload r d else r)

/-- A freshly inserted row: the key, the payload, and the store default
for every untouched column. -/
def newRow (k : Str) (d : Payload) : UserDataRow :=
  { key := k
    userId := d.userId
    isFavorite := d.isFavorite
    played := d.played
    playbackPositionTicks := d.playbackPositionTicks
    playCount := d.playCount
    lastPlayedDate := d.lastPlayedDate
    extra := [] }

/-- The write `UserDatas.insert({key, ...data})`: append the new row. -/
def insertRow (uds : List UserDataRow) (k : Str) (d : Payload) : List UserDataRow :=
  uds ++ [newRow k d]

/-- Per-record console outcome of the loop body. -/
inductive Outcome where
  | skipped
  | inserted
  | updated
deriving DecidableEq

/-- One iteration of the source's `for (const kodiEntry of watched)`
loop: match by path, skip when unmatched, otherwise upsert keyed by
`UserDataKey`. -/
def syncStep (items : List TypedBaseItem) (now : Str) (uds : List UserDataRow)
    (e : KodiEntry) : List UserDataRow × Outcome :=
  match findTargetItem items e.strFilename with
  | none => (uds, Outcome.skipped)
  | some it =>
    match findExisting uds it.UserDataKey with
    | some _ => (applyUpdate uds it.UserDataKey (mkData e now), Outcome.updated)
    | none => (insertRow uds it.UserDataKey (mkData e now), Outcome.inserted)

/-- The whole reconciliation pass: fold `syncStep` over the watched
records, collecting the per-record outcomes. -/
def runSync (items : List TypedBaseItem) (now : Str) :
    List KodiEntry → List UserDataRow → List UserDataRow × List Outcome
  | [], uds => (uds, [])
  | e :: es, uds =>
    let p := syncStep items now uds e
    let q := runSync items now es p.1
    (q.1, p.2 :: q.2)

/-! ## Case equations for one loop iteration -/

theorem syncStep_of_no_match {items : List TypedBaseItem} {now : Str}
    {uds : List UserDataRow} {e : KodiEntry}
    (hm : findTargetItem items e.strFilename = none) :
    syncStep items now uds e = (uds, Outcome.skipped) := by
  simp [syncStep, hm]

theorem syncStep_of_update {items : List TypedBaseItem} {now : Str}
    {uds : List UserDataRow} {e : KodiEntry} {it : TypedBaseItem} {ex : UserDataRow}
    (hm : findTargetItem items e.strFilename = some it)
    (hfe : findExisting uds it.UserDataKey = some ex) :
    syncStep items now uds e =
      (applyUpdate uds it.UserDataKey (mkData e now), Outcome.updated) := by
  simp [syncStep, hm, hfe]

theorem syncStep_of_insert {items : List TypedBaseItem} {now : Str}
    {uds : List UserDataRow} {e : KodiEntry} {it : TypedBaseItem}
    (hm : findTargetItem items e.strFilename = some it)
    (hfe : findExisting uds it.UserDataKey = none) :
    syncStep items now uds e =
      (insertRow uds it.UserDataKey (mkData e now), Outcome.inserted) := by
  simp [syncStep, hm, hfe]

theorem findExisting_none_key {uds : List UserDataRow} {k : Str}
    (h : findExisting uds k = none) : ∀ r ∈ uds, r.key ≠ k := by
  intro r hr
  have := List.find?_eq_none.mp h r hr
  simpa using this

/-! ## Concrete sample data used by the witnesses -/

def itW : TypedBaseItem := ⟨[], ['p', 'f', 'q'], ['k']⟩

def eW : KodiEntry := ⟨['f'], some ['d'], 2⟩

def eWe : KodiEntry := ⟨['f'], some [], 2⟩

def eNo : KodiEntry := ⟨['z'], none, 1⟩

def nowW : Str := ['T']

def rowW : UserDataRow := ⟨['k'], 0, 1, 0, 7, 9, ['x'], ['E']⟩

/-! ## C1: insert on missing row -/

/-- C1: for a matched source record whose `UserDataKey` has no existing
`UserDatas` row, the loop body inserts exactly one new row — the state
becomes the old rows plus one appended row — whose key is that
`UserDataKey` and whose fields are `userId = 1`, `played = 1` (true),
`isFavorite = 0` (false), `playbackPositionTicks = 0`, and `playCount`
equal to the source record's `playCount`. -/
theorem insert_on_missing (items : List TypedBaseItem) (now : Str)
    (uds : List UserDataRow) (e : KodiEntry) (it : TypedBaseItem)
    (hm : findTargetItem items e.strFilename = some it)
    (hfe : findExisting uds it.UserDataKey = none) :
    (syncStep items now uds e).1 = uds ++ [newRow it.UserDataKey (mkData e now)] ∧
    (syncStep items now uds e).2 = Outcome.inserted ∧
    (newRow it.UserDataKey (mkData e now)).key = it.UserDataKey ∧
    (newRow it.UserDataKey (mkData e now)).userId = 1 ∧
    (newRow it.UserDataKey (mkData e now)).played = 1 ∧
    (newRow it.UserDataKey (mkData e now)).isFavorite = 0 ∧
    (newRow it.UserDataKey (mkData e now)).playbackPositionTicks = 0 ∧
    (newRow it.UserDataKey (mkData e now)).playCount = e.playCount := by
  rw [syncStep_of_insert hm hfe]
  refine ⟨rfl, rfl, rfl, rfl, rfl, rfl, rfl, rfl⟩

theorem insert_on_missing_witness :
    (syncStep [itW] nowW [] eW).1 = [] ++ [newRow itW.UserDataKey (mkData eW nowW)] ∧
    (newRow itW.UserDataKey (mkData eW nowW)).playCount = eW.playCount :=
  ⟨(insert_on_missing [itW] nowW [] eW itW (by decide) (by decide)).1,
   (insert_on_missing [itW] nowW [] eW itW (by decide) (by decide)).2.2.2.2.2.2.2⟩

/-! ## C4: skip on no match -/

/-- C4: a source record whose file path matches no target item produces
zero writes (the `UserDatas` state is unchanged), is reported as skipped
rather than as an error, and the loop continues with the remaining
records exactly as if it had started from them. -/
theorem skip_on_no_match (items : List TypedBaseItem) (now : Str)
    (uds : List UserDataRow) (e : KodiEntry) (es : List KodiEntry)
    (hm : findTargetItem items e.strFilename = none) :
    syncStep items now uds e = (uds, Outcome.skipped) ∧
    (runSync items now (e :: es) uds).1 = (runSync items now es uds).1 ∧
    (runSync items now (e :: es) uds).2 =
      Outcome.skipped :: (runSync items now es uds).2 := by
  refine ⟨syncStep_of_no_match hm, ?_, ?_⟩ <;>
    simp [runSync, syncStep_of_no_match hm]

theorem skip_on_no_match_witness :
    syncStep [itW] nowW [rowW] eNo = ([rowW], Outcome.skipped) ∧
    (runSync [itW] nowW [eNo, eW] [rowW]).2 =
      Outcome.skipped :: (runSync [itW] nowW [eW] [rowW]).2 :=
  ⟨(skip_on_no_match [itW] nowW [rowW] eNo [eW] (by decide)).1,
   (skip_on_no_match [itW] nowW [rowW] eNo [eW] (by decide)).2.2⟩

/-! ## Written lastPlayedDate (shared by C6 and C10) -/

theorem syncStep_written_date {items : List TypedBaseItem} {now : Str}
    {uds : List UserDataRow} {e : KodiEntry} {it : TypedBaseItem}
    (hm : findTargetItem items e.strFilename = some it) :
    ∀ r ∈ (syncStep items now uds e).1, r.key = it.UserDataKey →
      r.lastPlayedDate = (mkData e now).lastPlayedDate := by
  intro r hr hk
  cases hfe : findExisting uds it.UserDataKey with
  | some ex =>
      rw [syncStep_of_update hm hfe] at hr
      simp only [applyUpdate, List.mem_map] at hr
      obtain ⟨r0, hr0, hfr⟩ := hr
      by_cases h0 : r0.key = it.UserDataKey
      · rw [h0] at hfr
        simp only [beq_self_eq_true, if_true] at hfr
        rw [← hfr]
        rfl
      · have : (r0.key == it.UserDataKey) = false := by
          simpa using h0
        rw [this] at hfr
        simp only [Bool.false_eq_true, if_false] at hfr
        rw [← hfr] at hk
        exact absurd hk h0
  | none =>
      rw [syncStep_of_insert hm hfe] at hr
      simp only [insertRow, List.mem_append, List.mem_singleton] at hr
      rcases hr with hr | hr
      · exact absurd hk (findExisting_none_key hfe r hr)
      · rw [hr]
        rfl

/-! ## C6: timestamp fallback -/

/-- C6: the `lastPlayedDate` written for a matched record is the
source's `lastPlayed` with the literal `.000Z` suffix appended once
when a (non-empty) value is present, and otherwise the current-time
string observed at the call (`now`) with the same suffix appended once;
every row stored under the matched key carries exactly this value. -/
theorem lastPlayedDate_spec (items : List TypedBaseItem) (now : Str)
    (uds : List UserDataRow) (e : KodiEntry) (it : TypedBaseItem)
    (hm : findTargetItem items e.strFilename = some it) :
    (e.lastPlayed = none → (mkData e now).lastPlayedDate = now ++ dotZ) ∧
    (∀ s, e.lastPlayed = some s → s ≠ [] →
      (mkData e now).lastPlayedDate = s ++ dotZ) ∧
    (∀ r ∈ (syncStep items now uds e).1, r.key = it.UserDataKey →
      r.lastPlayedDate = (mkData e now).lastPlayedDate) := by
  refine ⟨?_, ?_, syncStep_written_date hm⟩
  · intro h
    simp [mkData, jsOrElse, h]
  · intro s hs hne
    simp [mkData, jsOrElse, hs, hne]

theorem lastPlayedDate_spec_witness :
    (mkData eW nowW).lastPlayedDate = ['d'] ++ dotZ :=
  (lastPlayedDate_spec [itW] nowW [] eW itW (by decide)).2.1 ['d'] (by decide) (by decide)

/-! ## C10: empty lastPlayed falls back like an absent one -/

/-- C10: when the source `lastPlayed` is the empty string, the written
`lastPlayedDate` is the current-time fallback with `.000Z` appended —
not the empty string with `.000Z` appended — because the JavaScript
`||` treats the empty string as falsy, the same as an absent value. -/
theorem empty_lastPlayed_fallback (items : List TypedBaseItem) (now : Str)
    (uds : List UserDataRow) (e : KodiEntry) (it : TypedBaseItem)
    (hm : findTargetItem items e.strFilename = some it)
    (h0 : e.lastPlayed = some []) :
    (mkData e now).lastPlayedDate = now ++ dotZ ∧
    ∀ r ∈ (syncStep items now uds e).1, r.key = it.UserDataKey →
      r.lastPlayedDate = now ++ dotZ := by
  have hd : (mkData e now).lastPlayedDate = now ++ dotZ := by
    simp [mkData, jsOrElse, h0]
  refine ⟨hd, fun r hr hk => ?_⟩
  rw [syncStep_written_date hm r hr hk]
  exact hd

theorem empty_lastPlayed_fallback_witness :
    (mkData eWe nowW).lastPlayedDate = nowW ++ dotZ :=
  (empty_lastPlayed_fallback [itW] nowW [] eWe itW (by decide) (by decide)).1

/-! ## C7: update overwrites exactly the payload fields -/

/-- C7: for a matched record whose key already has a row, the loop body
performs an update: the store keeps its length, every row keeps its
`key` and its `extra` (non-payload) column unchanged, rows under the
matched key have exactly their six payload fields overwritten with the
payload, and rows under any other key are completely unchanged. -/
theorem update_frame (items : List TypedBaseItem) (now : Str)
    (uds : List UserDataRow) (e : KodiEntry) (it : TypedBaseItem) (ex : UserDataRow)
    (hm : findTargetItem items e.strFilename = some it)
    (hfe : findExisting uds it.UserDataKey = some ex) :
    (syncStep items now uds e).2 = Outcome.updated ∧
    ((syncStep items now uds e).1).length = uds.length ∧
    ∀ i (hi : i < uds.length) (hi2 : i < ((syncStep items now uds e).1).length),
      (((syncStep items now uds e).1).get ⟨i, hi2⟩).key = (uds.get ⟨i, hi⟩).key ∧
      (((syncStep items now uds e).1).get ⟨i, hi2⟩).extra = (uds.get ⟨i, hi⟩).extra ∧
      ((uds.get ⟨i, hi⟩).key = it.UserDataKey →
        ((syncStep items now uds e).1).get ⟨i, hi2⟩ =
          setPayload (uds.get ⟨i, hi⟩) (mkData e now)) ∧
      ((uds.get ⟨i, hi⟩).key ≠ it.UserDataKey →
        ((syncStep items now uds e).1).get ⟨i, hi2⟩ = uds.get ⟨i, hi⟩) := by
  rw [syncStep_of_update hm hfe]
  refine ⟨rfl, by simp [applyUpdate], ?_⟩
  intro i hi hi2
  have hget : (applyUpdate uds it.UserDataKey (mkData e now)).get ⟨i, hi2⟩ =
      if (uds.get ⟨i, hi⟩).key == it.UserDataKey then
        setPayload (uds.get ⟨i, hi⟩) (mkData e now)
      else uds.get ⟨i, hi⟩ := by
    simp [applyUpdate]
  by_cases hk : (uds.get ⟨i, hi⟩).key = it.UserDataKey
  · have hc : ((uds.get ⟨i, hi⟩).key == it.UserDataKey) = true := by simpa using hk
    rw [hget, hc]
    simp [setPayload, hk]
    intro hcon
    exact absurd hk hcon
  · have hc : ((uds.get ⟨i, hi⟩).key == it.UserDataKey) = false := by simpa using hk
    rw [hget, hc]
    simp [hk]
    intro hcon
    exact absurd hcon hk

theorem update_frame_witness :
    (syncStep [itW] nowW [rowW] eW).2 = Outcome.updated ∧
    ((syncStep [itW] nowW [rowW] eW).1).length = [rowW].length ∧
    (((syncStep [itW] nowW [rowW] eW).1).get
        ⟨0, by decide⟩).extra = ([rowW].get ⟨0, by decide⟩).extra :=
  ⟨(update_frame [itW] nowW [rowW] eW itW rowW (by decide) (by decide)).1,
   (update_frame [itW] nowW [rowW] eW itW rowW (by decide) (by decide)).2.1,
   ((update_frame [itW] nowW [rowW] eW itW rowW (by decide) (by decide)).2.2
      0 (by decide) (by decide)).2.1⟩

/-! ## C8: key uniqueness is preserved -/

/-- Each `userDataKey` identifies at most one `UserDatas` row. -/
def UniqueKeys (uds : List UserDataRow) : Prop :=
  uds.Pairwise (fun a b => a.key ≠ b.key)

theorem applyUpdate_key_map (k : Str) (d : Payload) :
    ∀ r, ((fun r => if r.key == k then setPayload r d else r) r).key = r.key := by
  intro r
  by_cases h : r.key = k <;> simp [h, setPayload]

theorem syncStep_preserves_unique {items : List TypedBaseItem} {now : Str}
    {uds : List UserDataRow} {e : KodiEntry}
    (h : UniqueKeys uds) : UniqueKeys (syncStep items now uds e).1 := by
  cases hm : findTargetItem items e.strFilename with
  | none => rw [syncStep_of_no_match hm]; exact h
  | some it =>
    cases hfe : findExisting uds it.UserDataKey with
    | some ex =>
      rw [syncStep_of_update hm hfe]
      unfold UniqueKeys applyUpdate
      rw [List.pairwise_map]
      refine h.imp ?_
      intro a b hab
      rw [applyUpdate_key_map it.UserDataKey (mkData e now) a,
        applyUpdate_key_map it.UserDataKey (mkData e now) b]
      exact hab
    | none =>
      rw [syncStep_of_insert hm hfe]
      unfold UniqueKeys insertRow
      rw [List.pairwise_append]
      refine ⟨h, List.pairwise_singleton _ _, ?_⟩
      intro a ha b hb
      rw [List.mem_singleton] at hb
      rw [hb]
      exact findExisting_none_key hfe a ha

/-- C8: if initially each key identifies at most one `UserDatas` row,
the whole reconciliation pass preserves that: it never inserts a second
row for a key that already has one, even when several source records
hit the same target item within one run. -/
theorem runSync_preserves_unique (items : List TypedBaseItem) (now : Str)
    (es : List KodiEntry) (uds : List UserDataRow)
    (h : UniqueKeys uds) : UniqueKeys (runSync items now es uds).1 := by
  induction es generalizing uds with
  | nil => exact h
  | cons e es ih =>
    simpa [runSync] using ih (syncStep items now uds e).1 (syncStep_preserves_unique h)

theorem runSync_preserves_unique_witness :
    UniqueKeys (runSync [itW] nowW [eW, eWe, eW] [rowW]).1 :=
  runSync_preserves_unique [itW] nowW [eW, eWe, eW] [rowW]
    (by simp [UniqueKeys])

/-! ## C5: identifier formatting (`formatGUID`) and its round trip -/

/-- One lowercase hexadecimal digit, for `0 ≤ n < 16`. -/
def hexDigit (n : Nat) : Char :=
  if n < 10 then Char.ofNat (48 + n) else Char.ofNat (87 + n)

/-- The two lowercase hex digits of one byte, as produced per byte by
Node's `Buffer.toString("hex")`. -/
def byteToHex (b : Nat) : List Char :=
  [hexDigit (b / 16 % 16), hexDigit (b % 16)]

/-- The encoding `guid.toString("hex")`: the 2-digits-per-byte hex
string. -/
def guidHex (g : List Nat) : List Char := g.flatMap byteToHex

/-- The `substring`/`join("-")` part of `formatGUID`: the five groups
`[0,8) [8,12) [12,16) [16,20) [20,32)` joined with hyphens. -/
def hyphenate (hs : List Char) : List Char :=
  hs.take 8 ++ '-' :: ((hs.drop 8).take 4) ++ '-' :: ((hs.drop 12).take 4) ++
    '-' :: ((hs.drop 16).take 4) ++ '-' :: ((hs.drop 20).take 12)

/-- The failure condition of `formatGUID` (the thrown
"Hex string must be 32 characters long" error). -/
inductive GuidError where
  | invalidIdentifierLength
deriving DecidableEq

/-- The formatter `formatGUID`: hex-encode the raw bytes, fail unless the hex string
has 32 characters (16 bytes), else emit the 8-4-4-4-12 hyphenated
form. -/
def formatGUID (guid : List Nat) : Except GuidError (List Char) :=
  let guidStr := guidHex guid
  if guidStr.length ≠ 32 then Except.error GuidError.invalidIdentifierLength
  else Except.ok (hyphenate guidStr)

/-- Value of one lowercase hex digit character. -/
def hexVal (c : Char) : Option Nat :=
  if '0' ≤ c ∧ c ≤ '9' then some (c.toNat - 48)
  else if 'a' ≤ c ∧ c ≤ 'f' then some (c.toNat - 87)
  else none

/-- Decode a hex string two digits at a time into bytes. -/
def decodeHexPairs : List Char → Option (List Nat)
  | [] => some []
  | [_] => none
  | c1 :: c2 :: rest =>
    match hexVal c1, hexVal c2, decodeHexPairs rest with
    | some h, some l, some bs => some ((16 * h + l) :: bs)
    | _, _, _ => none

/-- Modelled from the spec: the repository contains no identifier
parser, only the formatter; the spec's round-trip property needs the
canonical inverse of the hyphenated form, which is: drop the hyphens
and decode the hex digit pairs back to bytes. -/
def parseGUID (s : List Char) : Option (List Nat) :=
  decodeHexPairs (s.filter (fun c => c ≠ '-'))

theorem guidHex_length (g : List Nat) : (guidHex g).length = 2 * g.length := by
  induction g with
  | nil => rfl
  | cons b g ih =>
    simp [guidHex, List.flatMap_cons, byteToHex] at ih ⊢
    omega

theorem hexDigit_ne_hyphen : ∀ n < 16, hexDigit n ≠ '-' := by decide

theorem hexVal_hexDigit : ∀ n < 16, hexVal (hexDigit n) = some n := by decide

theorem guidHex_mem_ne_hyphen (g : List Nat) : ∀ c ∈ guidHex g, c ≠ '-' := by
  induction g with
  | nil => intro c hc; simp [guidHex] at hc
  | cons b g ih =>
    intro c hc
    simp only [guidHex, List.flatMap_cons, List.mem_append] at hc
    rcases hc with hc | hc
    · simp only [byteToHex, List.mem_cons, List.not_mem_nil, or_false] at hc
      rcases hc with hc | hc <;> rw [hc] <;>
        exact hexDigit_ne_hyphen _ (Nat.mod_lt _ (by omega))
    · exact ih c hc

theorem decodeHexPairs_guidHex (g : List Nat) (hb : ∀ b ∈ g, b < 256) :
    decodeHexPairs (guidHex g) = some g := by
  induction g with
  | nil => rfl
  | cons b g ih =>
    have hb0 : b < 256 := hb b (List.mem_cons_self b g)
    have h1 : hexVal (hexDigit (b / 16 % 16)) = some (b / 16 % 16) :=
      hexVal_hexDigit _ (Nat.mod_lt _ (by omega))
    have h2 : hexVal (hexDigit (b % 16)) = some (b % 16) :=
      hexVal_hexDigit _ (Nat.mod_lt _ (by omega))
    have ih2 := ih (fun x hx => hb x (List.mem_cons_of_mem b hx))
    have hbyte : 16 * (b / 16 % 16) + b % 16 = b := by omega
    have hsplit : guidHex (b :: g) =
        hexDigit (b / 16 % 16) :: hexDigit (b % 16) :: guidHex g := by
      simp [guidHex, List.flatMap_cons, byteToHex]
    rw [hsplit]
    show (match hexVal (hexDigit (b / 16 % 16)), hexVal (hexDigit (b % 16)),
        decodeHexPairs (guidHex g) with
      | some h, some l, some bs => some ((16 * h + l) :: bs)
      | _, _, _ => none) = some (b :: g)
    rw [h1, h2, ih2]
    show some ((16 * (b / 16 % 16) + b % 16) :: g) = some (b :: g)
    rw [hbyte]

theorem filter_hyphenate (hs : List Char) (hne : ∀ c ∈ hs, c ≠ '-')
    (hlen : hs.length = 32) :
    (hyphenate hs).filter (fun c => c ≠ '-') = hs := by
  have hpiece : ∀ t : List Char, (∀ c ∈ t, c ∈ hs) →
      t.filter (fun c => c ≠ '-') = t := by
    intro t ht
    refine List.filter_eq_self.mpr ?_
    intro a ha
    simpa using hne a (ht a ha)
  have h1 := hpiece (hs.take 8) (fun c hc => List.mem_of_mem_take hc)
  have h2 := hpiece ((hs.drop 8).take 4)
    (fun c hc => List.mem_of_mem_drop (List.mem_of_mem_take hc))
  have h3 := hpiece ((hs.drop 12).take 4)
    (fun c hc => List.mem_of_mem_drop (List.mem_of_mem_take hc))
  have h4 := hpiece ((hs.drop 16).take 4)
    (fun c hc => List.mem_of_mem_drop (List.mem_of_mem_take hc))
  have h5 := hpiece ((hs.drop 20).take 12)
    (fun c hc => List.mem_of_mem_drop (List.mem_of_mem_take hc))
  have hyph : (decide ('-' ≠ '-') : Bool) = false := by decide
  simp only [hyphenate, List.filter_append, List.filter_cons, hyph,
    Bool.false_eq_true, if_false, h1, h2, h3, h4, h5]
  have e5 : (hs.drop 20).take 12 = hs.drop 20 :=
    List.take_of_length_le (by rw [List.length_drop]; omega)
  rw [e5]
  have e4 : (hs.drop 16).take 4 ++ hs.drop 20 = hs.drop 16 := by
    have : (hs.drop 16).drop 4 = hs.drop 20 := by
      rw [List.drop_drop]
    rw [← this, List.take_append_drop]
  have e3 : (hs.drop 12).take 4 ++ hs.drop 16 = hs.drop 12 := by
    have : (hs.drop 12).drop 4 = hs.drop 16 := by
      rw [List.drop_drop]
    rw [← this, List.take_append_drop]
  have e2 : (hs.drop 8).take 4 ++ hs.drop 12 = hs.drop 8 := by
    have : (hs.drop 8).drop 4 = hs.drop 12 := by
      rw [List.drop_drop]
    rw [← this, List.take_append_drop]
  rw [List.append_assoc, List.append_assoc, List.append_assoc] at *
  rw [e4]
  rw [e3]
  rw [e2]
  exact List.take_append_drop 8 hs

/-- C5: on a 16-byte input `formatGUID` succeeds with the 8-4-4-4-12
hyphenated hexadecimal string (36 characters), and parsing that string
back — dropping the hyphens and decoding the hex pairs — recovers
exactly the original 16 bytes; on an input of any other length it fails
with the invalid-identifier-length condition. -/
theorem formatGUID_roundtrip (g : List Nat) (hb : ∀ b ∈ g, b < 256) :
    (g.length = 16 →
      formatGUID g = Except.ok (hyphenate (guidHex g)) ∧
      (hyphenate (guidHex g)).length = 36 ∧
      parseGUID (hyphenate (guidHex g)) = some g) ∧
    (g.length ≠ 16 → formatGUID g = Except.error GuidError.invalidIdentifierLength) := by
  constructor
  · intro h16
    have hlen : (guidHex g).length = 32 := by rw [guidHex_length, h16]
    refine ⟨?_, ?_, ?_⟩
    · simp [formatGUID, hlen]
    · simp only [hyphenate, List.length_append, List.length_cons,
        List.length_take, List.length_drop, hlen]
      omega
    · unfold parseGUID
      rw [filter_hyphenate (guidHex g) (guidHex_mem_ne_hyphen g) hlen]
      exact decodeHexPairs_guidHex g hb
  · intro hne
    have hlen : (guidHex g).length ≠ 32 := by rw [guidHex_length]; omega
    simp [formatGUID, hlen]

/-- The sixteen bytes 0,1,…,15. -/
def gW16 : List Nat := List.range 16

theorem formatGUID_roundtrip_witness :
    parseGUID (hyphenate (guidHex gW16)) = some gW16 ∧
    formatGUID [1] = Except.error GuidError.invalidIdentifierLength :=
  ⟨((formatGUID_roundtrip gW16 (by decide)).1 (by decide)).2.2,
   (formatGUID_roundtrip [1] (by decide)).2 (by decide)⟩

/-! ## C3: what the matcher actually matches -/

/-- Plain prefix test on character lists (case-sensitive). -/
def beginsWith : Str → Str → Bool
  | [], _ => true
  | _ :: _, [] => false
  | c :: cs, d :: ds => (c == d) && beginsWith cs ds

/-- The spec's words, as a definition: "the stored path contains the
source file path as a substring (pure substring containment)". -/
def containsSub (needle hay : Str) : Bool :=
  hay.tails.any (fun t => beginsWith needle t)

theorem beginsWith_iff (x : Str) : ∀ y, (beginsWith x y = true ↔ ∃ t, y = x ++ t) := by
  induction x with
  | nil =>
    intro y
    simp [beginsWith]
  | cons c cs ih =>
    intro y
    cases y with
    | nil => simp [beginsWith]
    | cons d ds =>
      simp only [beginsWith, Bool.and_eq_true, beq_iff_eq, ih ds,
        List.cons_append, List.cons.injEq]
      constructor
      · rintro ⟨h1, t, ht⟩
        exact ⟨t, h1.symm, ht⟩
      · rintro ⟨t, h1, ht⟩
        exact ⟨h1.symm, t, ht⟩

theorem containsSub_iff (x y : Str) :
    containsSub x y = true ↔ ∃ a b, y = a ++ (x ++ b) := by
  unfold containsSub
  rw [List.any_eq_true]
  constructor
  · rintro ⟨t, ht, hb⟩
    rw [List.mem_tails] at ht
    obtain ⟨a, ha⟩ := ht
    obtain ⟨b, hb'⟩ := (beginsWith_iff x t).mp hb
    exact ⟨a, b, by rw [← ha, hb']⟩
  · rintro ⟨a, b, hy⟩
    exact ⟨x ++ b, (List.mem_tails _ _).mpr ⟨a, hy.symm⟩, (beginsWith_iff x (x ++ b)).mpr ⟨b, rfl⟩⟩

theorem likeMatch_percent (ps : List Char) (s : Str) :
    likeMatch ('%' :: ps) s = s.tails.any (fun t => likeMatch ps t) := by
  simp [likeMatch]

theorem likeMatch_cons_nil {c : Char} (ps : List Char) (hc1 : c ≠ '%') :
    likeMatch (c :: ps) [] = false := by
  simp [likeMatch, hc1]

theorem likeMatch_cons_cons {c d : Char} (ps : List Char) (t : Str)
    (hc1 : c ≠ '%') (hc2 : c ≠ '_') :
    likeMatch (c :: ps) (d :: t) =
      ((asciiLower c == asciiLower d) && likeMatch ps t) := by
  simp [likeMatch, hc1, hc2]

theorem likeTail_iff (f : Str) :
    ∀ t, (∀ c ∈ f, c ≠ '%' ∧ c ≠ '_') →
      (likeMatch (f ++ ['%']) t = true ↔ ∃ b, lowerS t = lowerS f ++ b) := by
  induction f with
  | nil =>
    intro t _
    constructor
    · intro _
      exact ⟨lowerS t, by simp [lowerS]⟩
    · intro _
      rw [List.nil_append, likeMatch_percent]
      apply List.any_eq_true.mpr
      exact ⟨[], (List.mem_tails _ _).mpr ⟨t, by simp⟩, by simp [likeMatch]⟩
  | cons c f' ih =>
    intro t hf
    obtain ⟨hc1, hc2⟩ := hf c (List.mem_cons_self c f')
    have hf' : ∀ x ∈ f', x ≠ '%' ∧ x ≠ '_' :=
      fun x hx => hf x (List.mem_cons_of_mem c hx)
    cases t with
    | nil =>
      rw [List.cons_append, likeMatch_cons_nil _ hc1]
      simp [lowerS]
    | cons d t' =>
      rw [List.cons_append, likeMatch_cons_cons _ _ hc1 hc2]
      rw [Bool.and_eq_true, beq_iff_eq]
      constructor
      · rintro ⟨h1, h2⟩
        obtain ⟨b, hb⟩ := (ih t' hf').mp h2
        refine ⟨b, ?_⟩
        simp only [lowerS, List.map_cons, List.cons_append, List.cons.injEq] at hb ⊢
        exact ⟨h1.symm, hb⟩
      · rintro ⟨b, hb⟩
        simp only [lowerS, List.map_cons, List.cons_append, List.cons.injEq] at hb
        exact ⟨hb.1.symm, (ih t' hf').mpr ⟨b, hb.2⟩⟩

theorem pathMatches_iff (f s : Str) (hf : ∀ c ∈ f, c ≠ '%' ∧ c ≠ '_') :
    pathMatches f s = true ↔ ∃ a b, lowerS s = a ++ (lowerS f ++ b) := by
  unfold pathMatches
  rw [likeMatch_percent, List.any_eq_true]
  constructor
  · rintro ⟨t, ht, hb⟩
    rw [List.mem_tails] at ht
    obtain ⟨a, ha⟩ := ht
    obtain ⟨b, hb'⟩ := (likeTail_iff f t hf).mp hb
    refine ⟨lowerS a, b, ?_⟩
    rw [← ha]
    simp only [lowerS, List.map_append] at hb' ⊢
    rw [hb']
  · rintro ⟨a, b, hy⟩
    refine ⟨s.drop a.length, (List.mem_tails _ _).mpr (List.drop_suffix a.length s), ?_⟩
    apply (likeTail_iff f _ hf).mpr
    refine ⟨b, ?_⟩
    have : lowerS (s.drop a.length) = (lowerS s).drop a.length := by
      simp [lowerS, List.map_drop]
    rw [this, hy, List.drop_left]

theorem bool_eq_of_true_iff {a b : Bool} (h : a = true ↔ b = true) : a = b := by
  cases a <;> cases b <;> simp_all

/-- C3 (amended): the matcher returns the first target item whose path
matches the SQL LIKE pattern built around the raw filename; for a
filename containing no LIKE wildcard (`%` or `_`), this is
ASCII-case-insensitive substring containment — the first item whose
lower-cased path contains the lower-cased filename, and no-match when
no lower-cased path contains it — not pure (case-sensitive) substring
containment of the raw strings. -/
theorem findTargetItem_like_semantics (items : List TypedBaseItem) (f : Str)
    (hf : ∀ c ∈ f, c ≠ '%' ∧ c ≠ '_') :
    (∀ s, pathMatches f s = containsSub (lowerS f) (lowerS s)) ∧
    findTargetItem items f =
      items.find? (fun it => containsSub (lowerS f) (lowerS it.Path)) := by
  have hpt : ∀ s, pathMatches f s = containsSub (lowerS f) (lowerS s) := by
    intro s
    apply bool_eq_of_true_iff
    rw [pathMatches_iff f s hf, containsSub_iff]
  refine ⟨hpt, ?_⟩
  unfold findTargetItem
  have hfun : (fun it : TypedBaseItem => pathMatches f it.Path) =
      (fun it : TypedBaseItem => containsSub (lowerS f) (lowerS it.Path)) :=
    funext fun it => hpt it.Path
  rw [hfun]

theorem findTargetItem_like_semantics_witness :
    findTargetItem [itW] ['f'] =
      [itW].find? (fun it => containsSub (lowerS ['f']) (lowerS it.Path)) :=
  (findTargetItem_like_semantics [itW] ['f'] (by decide)).2

/-- C3 counterexample: with a single target item whose stored path is
"aXb" and the source file path "a_b", the matcher returns that item
even though no stored path contains "a_b" as a substring — the LIKE
wildcard `_` matched the "X" — so the matcher is not pure substring
containment. -/
theorem findTargetItem_not_pure_substring :
    findTargetItem [⟨[], ['a', 'X', 'b'], ['k']⟩] ['a', '_', 'b'] =
      some ⟨[], ['a', 'X', 'b'], ['k']⟩ ∧
    containsSub ['a', '_', 'b'] ['a', 'X', 'b'] = false := by
  constructor
  · decide
  · decide

/-! ## C2: idempotence machinery -/

/-- The upsert on the `UserDatas` store for one key/payload pair:
update when a row exists, insert otherwise. -/
def upsert (uds : List UserDataRow) (k : Str) (d : Payload) : List UserDataRow :=
  match findExisting uds k with
  | some _ => applyUpdate uds k d
  | none => insertRow uds k d

/-- The sequence of (key, payload) writes a run performs: one per
matched record, in record order. -/
def writes (items : List TypedBaseItem) (now : Str) (es : List KodiEntry) :
    List (Str × Payload) :=
  es.filterMap (fun e => (findTargetItem items e.strFilename).map
    (fun it => (it.UserDataKey, mkData e now)))

/-- Folding the upserts of a run over the store. -/
def applyWrites (uds : List UserDataRow) (ws : List (Str × Payload)) : List UserDataRow :=
  ws.foldl (fun u w => upsert u w.1 w.2) uds

/-- The last payload written to a given key by a write sequence. -/
def lastWrite : List (Str × Payload) → Str → Option Payload
  | [], _ => none
  | (k0, d) :: ws, k =>
    match lastWrite ws k with
    | some d1 => some d1
    | none => if k0 == k then some d else none

/-- The cumulative effect of a write sequence on one row. -/
def applyAll (ws : List (Str × Payload)) (r : UserDataRow) : UserDataRow :=
  ws.foldl (fun r w => if r.key == w.1 then setPayload r w.2 else r) r

/-- The payload part of a stored row. -/
def payloadOf (r : UserDataRow) : Payload :=
  ⟨r.userId, r.isFavorite, r.played, r.playbackPositionTicks, r.playCount, r.lastPlayedDate⟩

/-- Does some row carry this key? -/
def hasKey (uds : List UserDataRow) (k : Str) : Bool :=
  (findExisting uds k).isSome

theorem upsert_of_some {uds : List UserDataRow} {k : Str} {ex : UserDataRow}
    (hfe : findExisting uds k = some ex) (d : Payload) :
    upsert uds k d = applyUpdate uds k d := by
  simp [upsert, hfe]

theorem upsert_of_none {uds : List UserDataRow} {k : Str}
    (hfe : findExisting uds k = none) (d : Payload) :
    upsert uds k d = insertRow uds k d := by
  simp [upsert, hfe]

theorem syncStep_fst_upsert (items : List TypedBaseItem) (now : Str)
    (uds : List UserDataRow) (e : KodiEntry) (it : TypedBaseItem)
    (hm : findTargetItem items e.strFilename = some it) :
    (syncStep items now uds e).1 = upsert uds it.UserDataKey (mkData e now) := by
  cases hfe : findExisting uds it.UserDataKey with
  | some ex => rw [syncStep_of_update hm hfe, upsert_of_some hfe]
  | none => rw [syncStep_of_insert hm hfe, upsert_of_none hfe]

theorem runSync_fst_eq (items : List TypedBaseItem) (now : Str) :
    ∀ (es : List KodiEntry) (uds : List UserDataRow),
      (runSync items now es uds).1 = applyWrites uds (writes items now es) := by
  intro es
  induction es with
  | nil => intro uds; rfl
  | cons e es ih =>
    intro uds
    show (runSync items now es (syncStep items now uds e).1).1 = _
    rw [ih]
    cases hm : findTargetItem items e.strFilename with
    | none =>
      rw [syncStep_of_no_match hm]
      have : writes items now (e :: es) = writes items now es := by
        simp [writes, List.filterMap_cons, hm]
      rw [this]
    | some it =>
      rw [syncStep_fst_upsert items now uds e it hm]
      have : writes items now (e :: es) =
          (it.UserDataKey, mkData e now) :: writes items now es := by
        simp [writes, List.filterMap_cons, hm]
      rw [this]
      rfl

theorem setPayload_key (r : UserDataRow) (d : Payload) :
    (setPayload r d).key = r.key := rfl

theorem setPayload_setPayload (r : UserDataRow) (d d2 : Payload) :
    setPayload (setPayload r d) d2 = setPayload r d2 := rfl

theorem payloadOf_setPayload (r : UserDataRow) (d : Payload) :
    payloadOf (setPayload r d) = d := rfl

theorem setPayload_payloadOf (r : UserDataRow) :
    setPayload r (payloadOf r) = r := rfl

theorem payloadOf_newRow (k : Str) (d : Payload) :
    payloadOf (newRow k d) = d := rfl

theorem applyAll_cons (k : Str) (d : Payload) (ws : List (Str × Payload))
    (r : UserDataRow) :
    applyAll ((k, d) :: ws) r =
      applyAll ws (if r.key == k then setPayload r d else r) := rfl

theorem applyAll_eq_lastWrite : ∀ (ws : List (Str × Payload)) (r : UserDataRow),
    applyAll ws r =
      match lastWrite ws r.key with
      | some d => setPayload r d
      | none => r := by
  intro ws
  induction ws with
  | nil => intro r; rfl
  | cons w ws ih =>
    intro r
    obtain ⟨k0, d0⟩ := w
    rw [applyAll_cons]
    by_cases h0 : r.key = k0
    · have hb : (r.key == k0) = true := by simpa using h0
      have hb2 : (k0 == r.key) = true := by simpa using h0.symm
      rw [hb]
      simp only [if_true]
      rw [ih (setPayload r d0)]
      show (match lastWrite ws r.key with
        | some d => setPayload (setPayload r d0) d
        | none => setPayload r d0) = _
      cases hl : lastWrite ws r.key with
      | some d1 =>
        show setPayload (setPayload r d0) d1 = _
        rw [setPayload_setPayload]
        show _ = (match lastWrite ((k0, d0) :: ws) r.key with
          | some d => setPayload r d
          | none => r)
        simp [lastWrite, hl]
      | none =>
        show setPayload r d0 = _
        simp [lastWrite, hl, hb2]
    · have hb : (r.key == k0) = false := by simpa using h0
      have hb2 : (k0 == r.key) = false := by
        simpa using fun h => h0 h.symm
      rw [hb]
      simp only [Bool.false_eq_true, if_false]
      rw [ih r]
      cases hl : lastWrite ws r.key with
      | some d1 => simp [lastWrite, hl]
      | none => simp [lastWrite, hl, hb2]

theorem lastWrite_cons_none_iff (k0 k : Str) (d0 : Payload) (ws : List (Str × Payload)) :
    lastWrite ((k0, d0) :: ws) k = none ↔
      lastWrite ws k = none ∧ (k0 == k) = false := by
  cases hl : lastWrite ws k with
  | some d1 => simp [lastWrite, hl]
  | none =>
    cases hb : (k0 == k) with
    | true => simp [lastWrite, hl, hb]
    | false => simp [lastWrite, hl, hb]

theorem mem_upsert_of_other_key {u : List UserDataRow} {k0 k : Str} {d : Payload}
    {r : UserDataRow} (hr : r ∈ upsert u k0 d) (hk : r.key = k) (hne : k0 ≠ k) :
    r ∈ u := by
  cases hfe : findExisting u k0 with
  | some ex =>
    rw [upsert_of_some hfe] at hr
    simp only [applyUpdate, List.mem_map] at hr
    obtain ⟨r0, hr0, hfr⟩ := hr
    by_cases h0 : r0.key = k0
    · have hb : (r0.key == k0) = true := by simpa using h0
      rw [hb] at hfr
      simp only [if_true] at hfr
      rw [← hfr] at hk
      rw [setPayload_key] at hk
      exact absurd (h0.symm.trans hk) hne
    · have hb : (r0.key == k0) = false := by simpa using h0
      rw [hb] at hfr
      simp only [Bool.false_eq_true, if_false] at hfr
      rw [hfr] at hr0
      exact hr0
  | none =>
    rw [upsert_of_none hfe] at hr
    simp only [insertRow, List.mem_append, List.mem_singleton] at hr
    rcases hr with hr | hr
    · exact hr
    · rw [hr] at hk
      exact absurd hk hne

theorem applyWrites_cons (u : List UserDataRow) (k : Str) (d : Payload)
    (ws : List (Str × Payload)) :
    applyWrites u ((k, d) :: ws) = applyWrites (upsert u k d) ws := rfl

theorem mem_applyWrites_of_unwritten :
    ∀ (ws : List (Str × Payload)) (u : List UserDataRow) (r : UserDataRow),
      r ∈ applyWrites u ws → lastWrite ws r.key = none → r ∈ u := by
  intro ws
  induction ws with
  | nil => intro u r hr _; exact hr
  | cons w ws ih =>
    intro u r hr hl
    obtain ⟨k0, d0⟩ := w
    rw [lastWrite_cons_none_iff] at hl
    have hne : k0 ≠ r.key := by simpa using hl.2
    exact mem_upsert_of_other_key (ih (upsert u k0 d0) r hr hl.1) rfl hne

theorem payload_mem_upsert_self {u : List UserDataRow} {k : Str} {d : Payload}
    {r : UserDataRow} (hr : r ∈ upsert u k d) (hk : r.key = k) :
    payloadOf r = d := by
  cases hfe : findExisting u k with
  | some ex =>
    rw [upsert_of_some hfe] at hr
    simp only [applyUpdate, List.mem_map] at hr
    obtain ⟨r0, hr0, hfr⟩ := hr
    by_cases h0 : r0.key = k
    · have hb : (r0.key == k) = true := by simpa using h0
      rw [hb] at hfr
      simp only [if_true] at hfr
      rw [← hfr]
      rfl
    · have hb : (r0.key == k) = false := by simpa using h0
      rw [hb] at hfr
      simp only [Bool.false_eq_true, if_false] at hfr
      rw [← hfr] at hk
      exact absurd hk h0
  | none =>
    rw [upsert_of_none hfe] at hr
    simp only [insertRow, List.mem_append, List.mem_singleton] at hr
    rcases hr with hr | hr
    · exact absurd hk (findExisting_none_key hfe r hr)
    · rw [hr]
      rfl

theorem payload_applyWrites_lastWrite :
    ∀ (ws : List (Str × Payload)) (u : List UserDataRow) (r : UserDataRow),
      r ∈ applyWrites u ws → ∀ d, lastWrite ws r.key = some d → payloadOf r = d := by
  intro ws
  induction ws with
  | nil =>
    intro u r _ d hd
    exact Option.noConfusion hd
  | cons w ws ih =>
    intro u r hr d hd
    obtain ⟨k0, d0⟩ := w
    cases hl : lastWrite ws r.key with
    | some d1 =>
      have hstep : lastWrite ((k0, d0) :: ws) r.key = some d1 := by
        simp [lastWrite, hl]
      rw [hstep] at hd
      have hd1 : d1 = d := by injection hd
      rw [← hd1]
      exact ih (upsert u k0 d0) r hr d1 hl
    | none =>
      have hstep : lastWrite ((k0, d0) :: ws) r.key =
          (if k0 == r.key then some d0 else none) := by
        simp [lastWrite, hl]
      rw [hstep] at hd
      cases hb : (k0 == r.key) with
      | false =>
        rw [if_neg (by simp [hb])] at hd
        exact Option.noConfusion hd
      | true =>
        rw [if_pos hb] at hd
        have hd0 : d0 = d := by injection hd
        have hk : r.key = k0 := by
          have h2 : k0 = r.key := by simpa using hb
          exact h2.symm
        rw [← hd0]
        exact payload_mem_upsert_self
          (mem_applyWrites_of_unwritten ws (upsert u k0 d0) r hr hl) hk

theorem find_key_isSome_map (g : UserDataRow → UserDataRow)
    (hg : ∀ r, (g r).key = r.key) (k : Str) :
    ∀ u : List UserDataRow,
      (List.find? (fun r => r.key == k) (u.map g)).isSome =
        (List.find? (fun r => r.key == k) u).isSome := by
  intro u
  induction u with
  | nil => rfl
  | cons r u ih =>
    rw [List.map_cons]
    by_cases hb : (r.key == k) = true
    · have h1 : List.find? (fun x => x.key == k) (g r :: u.map g) = some (g r) :=
        List.find?_cons_of_pos _ (by simp only [hg r]; exact hb)
      have h2 : List.find? (fun x => x.key == k) (r :: u) = some r :=
        List.find?_cons_of_pos _ hb
      rw [h1, h2]
      rfl
    · have h1 : List.find? (fun x => x.key == k) (g r :: u.map g) =
          List.find? (fun x => x.key == k) (u.map g) :=
        List.find?_cons_of_neg _ (by simp only [hg r]; exact hb)
      have h2 : List.find? (fun x => x.key == k) (r :: u) =
          List.find? (fun x => x.key == k) u :=
        List.find?_cons_of_neg _ hb
      rw [h1, h2]
      exact ih

theorem hasKey_applyUpdate (u : List UserDataRow) (k0 k : Str) (d : Payload) :
    hasKey (applyUpdate u k0 d) k = hasKey u k := by
  unfold hasKey findExisting applyUpdate
  exact find_key_isSome_map _
    (fun r => by by_cases h : r.key = k0 <;> simp [h, setPayload]) k u

theorem hasKey_insertRow_mono (u : List UserDataRow) (k0 k : Str) (d : Payload)
    (h : hasKey u k = true) : hasKey (insertRow u k0 d) k = true := by
  unfold hasKey findExisting insertRow
  unfold hasKey findExisting at h
  rw [List.find?_append, Option.isSome_or, h]
  rfl

theorem hasKey_upsert_self (u : List UserDataRow) (k : Str) (d : Payload) :
    hasKey (upsert u k d) k = true := by
  cases hfe : findExisting u k with
  | some ex =>
    rw [upsert_of_some hfe, hasKey_applyUpdate]
    unfold hasKey
    rw [hfe]
    rfl
  | none =>
    rw [upsert_of_none hfe]
    unfold hasKey findExisting insertRow
    rw [List.find?_append]
    unfold findExisting at hfe
    rw [hfe, Option.none_or, List.find?_singleton, if_pos (by simp [newRow])]
    rfl

theorem hasKey_upsert_mono {u : List UserDataRow} {k : Str} (k0 : Str) (d : Payload)
    (h : hasKey u k = true) : hasKey (upsert u k0 d) k = true := by
  cases hfe : findExisting u k0 with
  | some ex => rw [upsert_of_some hfe, hasKey_applyUpdate]; exact h
  | none => rw [upsert_of_none hfe]; exact hasKey_insertRow_mono u k0 k d h

theorem hasKey_applyWrites_mono :
    ∀ (ws : List (Str × Payload)) (u : List UserDataRow) (k : Str),
      hasKey u k = true → hasKey (applyWrites u ws) k = true := by
  intro ws
  induction ws with
  | nil => intro u k h; exact h
  | cons w ws ih =>
    intro u k h
    obtain ⟨k0, d0⟩ := w
    rw [applyWrites_cons]
    exact ih (upsert u k0 d0) k (hasKey_upsert_mono k0 d0 h)

theorem hasKey_applyWrites_of_mem :
    ∀ (ws : List (Str × Payload)) (u : List UserDataRow) (k : Str) (d : Payload),
      (k, d) ∈ ws → hasKey (applyWrites u ws) k = true := by
  intro ws
  induction ws with
  | nil => intro u k d h; exact absurd h (List.not_mem_nil _)
  | cons w ws ih =>
    intro u k d h
    obtain ⟨k0, d0⟩ := w
    rw [applyWrites_cons]
    rcases List.mem_cons.mp h with h | h
    · have hk : k = k0 := congrArg Prod.fst h
      rw [hk]
      exact hasKey_applyWrites_mono ws (upsert u k0 d0) k0 (hasKey_upsert_self u k0 d0)
    · exact ih (upsert u k0 d0) k d h

theorem applyWrites_eq_map :
    ∀ (ws : List (Str × Payload)) (u : List UserDataRow),
      (∀ w ∈ ws, hasKey u w.1 = true) →
      applyWrites u ws = u.map (applyAll ws) := by
  intro ws
  induction ws with
  | nil =>
    intro u _
    show u = u.map (fun r => r)
    rw [List.map_id']
  | cons w ws ih =>
    intro u hks
    obtain ⟨k0, d0⟩ := w
    have hk0 : hasKey u k0 = true := hks (k0, d0) (List.mem_cons_self _ _)
    unfold hasKey at hk0
    obtain ⟨ex, hex⟩ := Option.isSome_iff_exists.mp hk0
    rw [applyWrites_cons, upsert_of_some hex]
    rw [ih (applyUpdate u k0 d0) (fun w hw => by
      rw [hasKey_applyUpdate]
      exact hks w (List.mem_cons_of_mem _ hw))]
    unfold applyUpdate
    rw [List.map_map]
    have hfun : (applyAll ws ∘ fun r =>
        if r.key == k0 then setPayload r d0 else r) = applyAll ((k0, d0) :: ws) :=
      funext fun r => (applyAll_cons k0 d0 ws r).symm
    rw [hfun]

theorem map_id_of_mem {α : Type} (l : List α) (f : α → α) (h : ∀ x ∈ l, f x = x) :
    l.map f = l := by
  induction l with
  | nil => rfl
  | cons a l ih =>
    rw [List.map_cons, h a (List.mem_cons_self a l),
      ih (fun x hx => h x (List.mem_cons_of_mem a hx))]

theorem writes_cons_none {items : List TypedBaseItem} {now : Str} {e : KodiEntry}
    (es : List KodiEntry) (hm : findTargetItem items e.strFilename = none) :
    writes items now (e :: es) = writes items now es := by
  simp [writes, List.filterMap_cons, hm]

theorem writes_cons_some {items : List TypedBaseItem} {now : Str} {e : KodiEntry}
    {it : TypedBaseItem} (es : List KodiEntry)
    (hm : findTargetItem items e.strFilename = some it) :
    writes items now (e :: es) =
      (it.UserDataKey, mkData e now) :: writes items now es := by
  simp [writes, List.filterMap_cons, hm]

theorem hasKey_syncStep {items : List TypedBaseItem} {now : Str}
    {uds : List UserDataRow} {e : KodiEntry} {k : Str}
    (h : hasKey uds k = true) : hasKey (syncStep items now uds e).1 k = true := by
  cases hm : findTargetItem items e.strFilename with
  | none => rw [syncStep_of_no_match hm]; exact h
  | some it =>
    rw [syncStep_fst_upsert items now uds e it hm]
    exact hasKey_upsert_mono _ _ h

theorem runSync_no_insert (items : List TypedBaseItem) (now : Str) :
    ∀ (es : List KodiEntry) (uds : List UserDataRow),
      (∀ w ∈ writes items now es, hasKey uds w.1 = true) →
      Outcome.inserted ∉ (runSync items now es uds).2 := by
  intro es
  induction es with
  | nil => intro uds _; simp [runSync]
  | cons e es ih =>
    intro uds hks
    have hsnd : (runSync items now (e :: es) uds).2 =
        (syncStep items now uds e).2 ::
          (runSync items now es (syncStep items now uds e).1).2 := rfl
    intro hmem
    rw [hsnd] at hmem
    have htail : ∀ w ∈ writes items now es,
        hasKey (syncStep items now uds e).1 w.1 = true := by
      intro w hw
      apply hasKey_syncStep
      apply hks w
      cases hm : findTargetItem items e.strFilename with
      | none => rw [writes_cons_none es hm]; exact hw
      | some it => rw [writes_cons_some es hm]; exact List.mem_cons_of_mem _ hw
    rcases List.mem_cons.mp hmem with h | h
    · cases hm : findTargetItem items e.strFilename with
      | none =>
        rw [syncStep_of_no_match hm] at h
        exact Outcome.noConfusion h
      | some it =>
        have hkey : hasKey uds it.UserDataKey = true := by
          apply hks (it.UserDataKey, mkData e now)
          rw [writes_cons_some es hm]
          exact List.mem_cons_self _ _
        unfold hasKey at hkey
        obtain ⟨ex, hex⟩ := Option.isSome_iff_exists.mp hkey
        rw [syncStep_of_update hm hex] at h
        exact Outcome.noConfusion h
    · exact ih (syncStep items now uds e).1 htail h

theorem writes_mem_key (items : List TypedBaseItem) (now1 now2 : Str)
    {es : List KodiEntry} {k : Str} {d : Payload}
    (h : (k, d) ∈ writes items now1 es) : ∃ d2, (k, d2) ∈ writes items now2 es := by
  simp only [writes, List.mem_filterMap] at h ⊢
  obtain ⟨e, he, hfe⟩ := h
  cases hft : findTargetItem items e.strFilename with
  | none =>
    rw [hft] at hfe
    exact Option.noConfusion hfe
  | some it =>
    rw [hft, Option.map_some'] at hfe
    have hpair : (it.UserDataKey, mkData e now1) = (k, d) := by injection hfe
    have hk : it.UserDataKey = k := congrArg (fun p : Str × Payload => p.1) hpair
    exact ⟨mkData e now2, e, he, by rw [hft, Option.map_some', hk]⟩

/-- C2 (amended): with unchanged source data, the second reconciliation
run performs no inserts (every matched key already has a row), and
provided the two runs observe the same current-time string — which is
the only input the written payloads depend on besides the source data —
the target state after the second run equals the state after the first.
(With differing clock readings a record lacking `lastPlayed` is
rewritten with the new fallback timestamp, so the states can differ.) -/
theorem runSync_idempotent (items : List TypedBaseItem) (now1 now2 : Str)
    (es : List KodiEntry) (uds : List UserDataRow) :
    Outcome.inserted ∉ (runSync items now2 es (runSync items now1 es uds).1).2 ∧
    (now1 = now2 →
      (runSync items now2 es (runSync items now1 es uds).1).1 =
        (runSync items now1 es uds).1) := by
  have hu1 : (runSync items now1 es uds).1 = applyWrites uds (writes items now1 es) :=
    runSync_fst_eq items now1 es uds
  have hkeys2 : ∀ w ∈ writes items now2 es,
      hasKey (runSync items now1 es uds).1 w.1 = true := by
    intro w hw
    obtain ⟨k, d⟩ := w
    obtain ⟨d1, hd1⟩ := writes_mem_key items now2 now1 hw
    rw [hu1]
    exact hasKey_applyWrites_of_mem (writes items now1 es) uds k d1 hd1
  constructor
  · exact runSync_no_insert items now2 es _ hkeys2
  · intro hnow
    subst hnow
    rw [runSync_fst_eq items now1 es, hu1]
    rw [applyWrites_eq_map (writes items now1 es) (applyWrites uds (writes items now1 es))
      (fun w hw => by
        obtain ⟨k, d⟩ := w
        exact hasKey_applyWrites_of_mem (writes items now1 es) uds k d hw)]
    apply map_id_of_mem
    intro r hr
    rw [applyAll_eq_lastWrite]
    cases hl : lastWrite (writes items now1 es) r.key with
    | none => rfl
    | some d =>
      show setPayload r d = r
      rw [← payload_applyWrites_lastWrite (writes items now1 es) uds r hr d hl]
      exact setPayload_payloadOf r

/-- A matching source record with no last-played value. -/
def eWn : KodiEntry := ⟨['f'], none, 2⟩

/-- C2 counterexample: a source record with no `lastPlayed` value is
rewritten on the second run with that run's current-time fallback, so
when the clock string differs between the two successive runs the
state after the second run differs from the state after the first —
the claim's unconditional field-for-field equality fails. -/
theorem runSync_not_idempotent_clock :
    ¬ ((runSync [itW] ['B'] [eWn] (runSync [itW] ['A'] [eWn] []).1).1 =
      (runSync [itW] ['A'] [eWn] []).1) := by
  decide

theorem runSync_idempotent_witness :
    (runSync [itW] nowW [eW, eWn] (runSync [itW] nowW [eW, eWn] []).1).1 =
      (runSync [itW] nowW [eW, eWn] []).1 :=
  (runSync_idempotent [itW] nowW nowW [eW, eWn] []).2 rfl

/-! ## C9: abort on store failure, connections released on every path -/

/-- The run with per-record failure injection: each record carries a
flag saying whether its store interaction (match query, existence
check or write) raises.  A raising record aborts the loop before its
write lands; the `Except.error` payload is the store state at the
moment of the failure, i.e. with all earlier writes committed. -/
def runSyncE (items : List TypedBaseItem) (now : Str) :
    List (KodiEntry × Bool) → List UserDataRow →
      Except (List UserDataRow) (List UserDataRow)
  | [], uds => Except.ok uds
  | (e, fails) :: es, uds =>
    if fails then Except.error uds
    else runSyncE items now es (syncStep items now uds e).1

/-- The end state of `main`: the final `UserDatas` rows and whether
each of the two `destroy()` calls ran. -/
structure MainResult where
  uds : List UserDataRow
  kodiReleased : Bool
  jellyfinReleased : Bool
deriving DecidableEq

/-- The `try`/`catch`/`finally` of `main`: a loop error is caught (and
logged), and both `destroy()` calls run unconditionally in the
`finally` block, on the success path and on the failure path alike. -/
def mainE (items : List TypedBaseItem) (now : Str)
    (recs : List (KodiEntry × Bool)) (uds : List UserDataRow) : MainResult :=
  match runSyncE items now recs uds with
  | Except.ok u => ⟨u, true, true⟩
  | Except.error u => ⟨u, true, true⟩

/-- C9: when the store interaction fails at some record, the run aborts
there: the resulting error state is exactly the state after the
successfully processed earlier records (their writes stay committed),
the failing record and all remaining records contribute nothing — the
result does not depend on them — and on every exit path, success or
failure, both store connections are released by the `finally` block. -/
theorem run_abort_and_release (items : List TypedBaseItem) (now : Str)
    (done : List KodiEntry) (e : KodiEntry) (rest : List (KodiEntry × Bool))
    (uds : List UserDataRow) :
    runSyncE items now (done.map (fun r => (r, false)) ++ (e, true) :: rest) uds =
      Except.error (runSync items now done uds).1 ∧
    ∀ recs : List (KodiEntry × Bool),
      (mainE items now recs uds).kodiReleased = true ∧
      (mainE items now recs uds).jellyfinReleased = true := by
  constructor
  · induction done generalizing uds with
    | nil => rfl
    | cons d done ih =>
      show runSyncE items now (done.map (fun r => (r, false)) ++ (e, true) :: rest)
        (syncStep items now uds d).1 = _
      rw [ih (syncStep items now uds d).1]
      rfl
  · intro recs
    unfold mainE
    cases runSyncE items now recs uds <;> exact ⟨rfl, rfl⟩
